import Mathlib

/-!
Verification of the core logic of the Shiny Wordle example application
(`srcjs/src/examples/wordle/app.py`): the guess evaluator `check_word`,
the keyboard-hint aggregator `used_letters`, and the reactive game state
with its event handlers (letter keys, Back, Enter, New Game).

Words are modelled as `List Char` (a Python string is a sequence of
characters, and `"".join` of a letter list is that list).
-/

/-- The `LetterMatch` literal type: `"correct" | "in-word" | "not-in-word"`. -/
inductive LetterMatch where
  | correct
  | inWord
  | notInWord
deriving DecidableEq, Repr

/-- The `GuessInfo` TypedDict: word, letters, per-letter match types, win flag. -/
structure GuessInfo where
  word : List Char
  letters : List Char
  match_types : List LetterMatch
  win : Bool
deriving DecidableEq, Repr

/-- First pass of `check_word`, over the zipped guess/target positions:
positions where guess and target agree are marked `correct` (others keep the
initial `not-in-word`), and every target letter at a disagreeing position is
appended to the `remaining` list.  Returns `(result, remaining)`. -/
def firstPass : List (Char × Char) → List LetterMatch × List Char
  | [] => ([], [])
  | (g, t) :: rest =>
    let p := firstPass rest
    if g = t then (LetterMatch.correct :: p.1, p.2)
    else (LetterMatch.notInWord :: p.1, t :: p.2)

/-- Second pass of `check_word`, over the positions zipped with the
first-pass result: `if guess[i] != target[i] and guess[i] in remaining`,
overwrite the entry with `in-word` and `remaining.remove(guess[i])`
(Python `list.remove` deletes the first occurrence, i.e. `List.erase`);
otherwise the first-pass entry is kept. -/
def secondPass : List ((Char × Char) × LetterMatch) → List Char → List LetterMatch
  | [], _ => []
  | ((g, t), m) :: rest, remaining =>
    if g ≠ t ∧ g ∈ remaining then
      LetterMatch.inWord :: secondPass rest (remaining.erase g)
    else
      m :: secondPass rest remaining

/-- `check_word(guess_str, target_str)`: raises (here: `none`) when the
lengths differ; otherwise runs the two passes and returns the `GuessInfo`
with `win = all(x == "correct" for x in result)`. -/
def check_word (guess target : List Char) : Option GuessInfo :=
  if guess.length ≠ target.length then none
  else
    let gt := guess.zip target
    let fp := firstPass gt
    let result := secondPass (gt.zip fp.1) fp.2
    some { word := guess
           letters := guess
           match_types := result
           win := result.all fun x => x = LetterMatch.correct }

-- Fused form of the two passes, used for the proofs: at each position the
-- outcome is `correct` when the letters agree, otherwise `in-word` exactly
-- when the guessed letter is still in `remaining` (consuming it).
def pass2 : List (Char × Char) → List Char → List LetterMatch
  | [], _ => []
  | (g, t) :: rest, remaining =>
    if g = t then LetterMatch.correct :: pass2 rest remaining
    else if g ∈ remaining then LetterMatch.inWord :: pass2 rest (remaining.erase g)
    else LetterMatch.notInWord :: pass2 rest remaining

/-! ### The spec's wording of the two-pass algorithm (for the refinement claim)

The spec describes `remaining` as a *multiset* of target letters and the
second pass as "if guess[i] is present in `remaining` (count > 0), mark
match[i] = InWord and decrement that letter's count".  The following
definitions follow the spec's words; they are compared with `check_word`. -/

/-- Spec wording, pass 1: the multiset of target letters that did not match
their guess position. -/
def specRemaining (guess target : List Char) : Multiset Char :=
  ((guess.zip target).filterMap fun p => if p.1 = p.2 then none else some p.2 : List Char)

/-- Spec wording, pass 2 (left to right; a position is already Correct
exactly when its letters agree): when the count of guess[i] in `remaining`
is positive, mark InWord and decrement that count; otherwise NotInWord. -/
def specSecondPass : List (Char × Char) → Multiset Char → List LetterMatch
  | [], _ => []
  | (g, t) :: rest, rem =>
    if g = t then LetterMatch.correct :: specSecondPass rest rem
    else if 0 < rem.count g then LetterMatch.inWord :: specSecondPass rest (rem.erase g)
    else LetterMatch.notInWord :: specSecondPass rest rem

/-- The match classification as the spec words it. -/
def spec_match_types (guess target : List Char) : List LetterMatch :=
  specSecondPass (guess.zip target) (specRemaining guess target)

/-! ### The keyboard-hint aggregator `used_letters` -/

/-- Strength of a match type: `"not-in-word" < "in-word" < "correct"`. -/
def matchStrength : LetterMatch → Nat
  | LetterMatch.notInWord => 0
  | LetterMatch.inWord => 1
  | LetterMatch.correct => 2

/-- Strength of a dictionary entry, an absent letter being weakest of all. -/
def optStrength : Option LetterMatch → Nat
  | none => 0
  | some m => 1 + matchStrength m

/-- One step of `used_letters`: update the `letter_matches` dictionary
(modelled as `Char → Option LetterMatch`) with one (letter, match_type)
observation.  If the letter has no entry the match type is stored; an
existing entry is only replaced by a strictly stronger one
(`"correct"` over `"not-in-word"`/`"in-word"`, `"in-word"` over
`"not-in-word"`). -/
def updateLetter (d : Char → Option LetterMatch) (letter : Char)
    (match_type : LetterMatch) : Char → Option LetterMatch :=
  match d letter with
  | none => fun c => if c = letter then some match_type else d c
  | some prev =>
    if match_type = LetterMatch.correct ∧
        (prev = LetterMatch.notInWord ∨ prev = LetterMatch.inWord) then
      fun c => if c = letter then some match_type else d c
    else if match_type = LetterMatch.inWord ∧ prev = LetterMatch.notInWord then
      fun c => if c = letter then some match_type else d c
    else d

/-- The inner loop of `used_letters`: fold one guess's letters (paired with
their match types) into the dictionary. -/
def processGuess (d : Char → Option LetterMatch) (guess : GuessInfo) :
    Char → Option LetterMatch :=
  (guess.letters.zip guess.match_types).foldl (fun d p => updateLetter d p.1 p.2) d

/-- `used_letters`: fold every guess of the history into the (initially
empty) dictionary. -/
def used_letters (history : List GuessInfo) : Char → Option LetterMatch :=
  history.foldl processGuess fun _ => none

/-! ### The reactive game state and its event handlers -/

/-- The server's reactive values: `target_word`, `all_guesses`,
`current_guess_letters` and `finished`. -/
structure GameState where
  target : List Char
  history : List GuessInfo
  pending : List Char
  finished : Bool
deriving DecidableEq, Repr

/-- Fresh session state: a target drawn from `words.targets`, no guesses,
no pending letters, not finished. -/
def initState (target : List Char) : GameState :=
  { target := target, history := [], pending := [], finished := false }

/-- The letter-key listener made by `make_key_listener`: no-op when
`finished` or when five letters are already pending; otherwise appends the
lowercased key. -/
def appendLetter (s : GameState) (key : Char) : GameState :=
  if s.finished then s
  else if 5 ≤ s.pending.length then s
  else { s with pending := s.pending ++ [key.toLower] }

/-- The `Back` effect: no-op when `finished`; pops the last pending letter
when there is one. -/
def deleteLetter (s : GameState) : GameState :=
  if s.finished then s
  else if 0 < s.pending.length then { s with pending := s.pending.dropLast }
  else s

/-- The `Enter` effect: joins the pending letters into the guess; returns
unchanged when the guess is not in `words.all`; otherwise runs `check_word`
against the target (a length-mismatch exception, modelled by `none`, aborts
before any state is written), appends the result to the history, sets
`finished` when the result won, and clears the pending letters. -/
def submitGuess (wordsAll : List (List Char)) (s : GameState) : GameState :=
  let guess := s.pending
  if guess ∉ wordsAll then s
  else
    match check_word guess s.target with
    | none => s
    | some res =>
      { s with history := s.history ++ [res]
               finished := if res.win then true else s.finished
               pending := [] }

/-- `reset_game`: draws a fresh target (the draw is a parameter here),
clears the guess history and resets `finished`.  It does not touch
`current_guess_letters`. -/
def reset_game (newTarget : List Char) (s : GameState) : GameState :=
  { s with target := newTarget, history := [], finished := false }

/-- Modelled from the spec: the `words` module (`words.targets` and
`words.all`) is imported by the app but is not among the source files; the
spec says both lists are "sets of fixed-length lowercase words" of the
game's fixed length 5, available before the first game. -/
def validWordLists (targets wordsAll : List (List Char)) : Prop :=
  (∀ t ∈ targets, t.length = 5 ∧ ∀ c ∈ t, c.isLower) ∧
  (∀ w ∈ wordsAll, w.length = 5 ∧ ∀ c ∈ w, c.isLower)

/-- One UI event processed by the server: a letter key, `Back`, `Enter`,
or the new-game button (whose fresh target comes from `words.targets`). -/
inductive Step (targets wordsAll : List (List Char)) : GameState → GameState → Prop where
  | letter (s : GameState) (key : Char) : Step targets wordsAll s (appendLetter s key)
  | back (s : GameState) : Step targets wordsAll s (deleteLetter s)
  | enter (s : GameState) : Step targets wordsAll s (submitGuess wordsAll s)
  | newGame (s : GameState) (t : List Char) (ht : t ∈ targets) :
      Step targets wordsAll s (reset_game t s)

/-- States reachable from a fresh session by any sequence of UI events. -/
inductive Reachable (targets wordsAll : List (List Char)) : GameState → Prop where
  | init (t : List Char) (ht : t ∈ targets) : Reachable targets wordsAll (initState t)
  | step {s s' : GameState} (hs : Reachable targets wordsAll s)
      (hstep : Step targets wordsAll s s') : Reachable targets wordsAll s'
/-! ### Concrete data used to exercise the definitions -/

/-- The word "crane". -/
def craneWord : List Char := ['c', 'r', 'a', 'n', 'e']

/-- A one-word target list for concrete runs. -/
def exTargets : List (List Char) := [craneWord]

/-- A one-word valid-guess list for concrete runs. -/
def exWords : List (List Char) := [craneWord]

/-- Fresh session on the target "crane". -/
def s0ex : GameState := initState craneWord

/-- The session after typing the five letters of "crane". -/
def s5ex : GameState :=
  appendLetter (appendLetter (appendLetter (appendLetter (appendLetter s0ex 'C') 'R') 'A') 'N') 'E'

/-- The session after submitting the winning guess "crane". -/
def sFex : GameState := submitGuess exWords s5ex

/-- A sample evaluated guess ("babes" against "abbey"). -/
def giEx : GuessInfo :=
  { word := ['b', 'a', 'b', 'e', 's']
    letters := ['b', 'a', 'b', 'e', 's']
    match_types := [LetterMatch.inWord, LetterMatch.inWord, LetterMatch.correct,
      LetterMatch.correct, LetterMatch.notInWord]
    win := false }

theorem secondPass_firstPass_eq_pass2 (gt : List (Char × Char)) (rem : List Char) :
    secondPass (gt.zip (firstPass gt).1) rem = pass2 gt rem := by
  induction gt generalizing rem with
  | nil => rfl
  | cons p rest ih =>
    obtain ⟨g, t⟩ := p
    by_cases hgt : g = t
    · simp [firstPass, secondPass, pass2, hgt, ih]
    · by_cases hmem : g ∈ rem
      · simp [firstPass, secondPass, pass2, hgt, hmem, ih]
      · simp [firstPass, secondPass, pass2, hgt, hmem, ih]

theorem check_word_eq_pass2 (guess target : List Char)
    (h : guess.length = target.length) :
    check_word guess target =
      some { word := guess
             letters := guess
             match_types := pass2 (guess.zip target) (firstPass (guess.zip target)).2
             win := (pass2 (guess.zip target) (firstPass (guess.zip target)).2).all
                      fun x => x = LetterMatch.correct } := by
  simp [check_word, h, secondPass_firstPass_eq_pass2]


theorem firstPass_snd (gt : List (Char × Char)) :
    (firstPass gt).2 = gt.filterMap fun p => if p.1 = p.2 then none else some p.2 := by
  induction gt with
  | nil => rfl
  | cons p rest ih =>
    obtain ⟨g, t⟩ := p
    by_cases hgt : g = t <;> simp [firstPass, hgt, ih]

theorem specSecondPass_coe (gt : List (Char × Char)) (rem : List Char) :
    specSecondPass gt (rem : Multiset Char) = pass2 gt rem := by
  induction gt generalizing rem with
  | nil => rfl
  | cons p rest ih =>
    obtain ⟨g, t⟩ := p
    by_cases hgt : g = t
    · simp [specSecondPass, pass2, hgt, ih]
    · by_cases hmem : g ∈ rem
      · rw [specSecondPass, pass2]
        simp only [hgt, if_false, if_neg hgt]
        rw [if_pos (Multiset.count_pos.mpr (Multiset.mem_coe.mpr hmem)), if_pos hmem,
          Multiset.coe_erase, ih]
      · rw [specSecondPass, pass2]
        have hcnt : ¬ 0 < Multiset.count g (rem : Multiset Char) := by
          simp [Multiset.count_pos, hmem]
        simp only [if_neg hgt, if_neg hcnt, if_neg hmem, ih]

theorem spec_match_types_eq_pass2 (guess target : List Char) :
    spec_match_types guess target =
      pass2 (guess.zip target) (firstPass (guess.zip target)).2 := by
  rw [spec_match_types, specRemaining, specSecondPass_coe, firstPass_snd]

/-! ### Claim C1: `check_word` implements the spec's two-pass algorithm -/

/-- C1: for every pair of equal-length lowercase words, `check_word`
computes `match_types` by the spec's two-pass algorithm: pass 1 marks a
position Correct when the letters agree and otherwise adds the target
letter to the multiset `remaining`; pass 2, over positions not already
Correct, marks InWord and decrements the guessed letter's count in
`remaining` when that count is positive, and leaves NotInWord otherwise. -/
theorem check_word_matches_spec_two_pass (guess target : List Char)
    (hlen : guess.length = target.length)
    (hg : ∀ c ∈ guess, c.isLower) (ht : ∀ c ∈ target, c.isLower) :
    ∃ gi, check_word guess target = some gi ∧
      gi.match_types = spec_match_types guess target := by
  refine ⟨_, check_word_eq_pass2 guess target hlen, ?_⟩
  simp [spec_match_types_eq_pass2]

theorem check_word_matches_spec_two_pass_witness :
    ∃ gi, check_word ['b', 'a', 'b', 'e', 's'] ['a', 'b', 'b', 'e', 'y'] = some gi ∧
      gi.match_types = spec_match_types ['b', 'a', 'b', 'e', 's'] ['a', 'b', 'b', 'e', 'y'] :=
  check_word_matches_spec_two_pass ['b', 'a', 'b', 'e', 's'] ['a', 'b', 'b', 'e', 'y']
    (by decide) (by decide) (by decide)

/-! ### Claim C2: the win flag -/

theorem pass2_all_correct (gt : List (Char × Char)) (rem : List Char) :
    (∀ m ∈ pass2 gt rem, m = LetterMatch.correct) ↔ ∀ p ∈ gt, p.1 = p.2 := by
  induction gt generalizing rem with
  | nil => simp [pass2]
  | cons p rest ih =>
    obtain ⟨g, t⟩ := p
    by_cases hgt : g = t
    · simp [pass2, hgt, ih]
    · by_cases hmem : g ∈ rem
      · simp [pass2, hgt, hmem, ih]
      · simp [pass2, hgt, hmem, ih]

theorem zip_forall_eq (gs ts : List Char) (h : gs.length = ts.length) :
    (∀ p ∈ gs.zip ts, p.1 = p.2) ↔ gs = ts := by
  induction gs generalizing ts with
  | nil =>
    cases ts with
    | nil => simp
    | cons t ts => simp at h
  | cons g gs ih =>
    cases ts with
    | nil => simp at h
    | cons t ts =>
      simp only [List.length_cons, Nat.succ.injEq] at h
      rw [List.zip_cons_cons]
      constructor
      · intro hall
        have hgt : g = t := hall (g, t) (List.mem_cons_self _ _)
        have hrest : gs = ts := (ih ts h).mp fun p hp => hall p (List.mem_cons_of_mem _ hp)
        rw [hgt, hrest]
      · intro heq
        rw [List.cons.injEq] at heq
        intro p hp
        rcases List.mem_cons.mp hp with h1 | h2
        · rw [h1]
          exact heq.1
        · exact (ih ts h).mpr heq.2 p h2

/-- C2: for every pair of equal-length words, the win flag of
`check_word(guess, target)` is true iff every element of `match_types` is
Correct, which holds iff `guess == target` letter-for-letter. -/
theorem check_word_win_iff (guess target : List Char) (gi : GuessInfo)
    (hlen : guess.length = target.length)
    (hgi : check_word guess target = some gi) :
    (gi.win = true ↔ ∀ m ∈ gi.match_types, m = LetterMatch.correct) ∧
    (gi.win = true ↔ guess = target) := by
  rw [check_word_eq_pass2 guess target hlen, Option.some.injEq] at hgi
  subst hgi
  constructor
  · simp [List.all_eq_true]
  · simp only [List.all_eq_true, decide_eq_true_eq]
    rw [pass2_all_correct, zip_forall_eq guess target hlen]

theorem check_word_win_iff_witness :
    (giEx.win = true ↔ ∀ m ∈ giEx.match_types, m = LetterMatch.correct) ∧
    (giEx.win = true ↔ ['b', 'a', 'b', 'e', 's'] = ['a', 'b', 'b', 'e', 'y']) :=
  check_word_win_iff ['b', 'a', 'b', 'e', 's'] ['a', 'b', 'b', 'e', 'y'] giEx
    (by decide) (by decide)

/-! ### Claim C4: the "trace" vs "crane" scenario

Running `check_word("trace", "crane")`: r, a and e sit at the same
positions in both words, so the first pass marks them Correct; only c is
marked InWord and t NotInWord.  The claimed classifications (r, a, c, e
all InWord) disagree with the code at exactly this input. -/

/-- C4 counterexample: `check_word("trace", "crane")` does *not* produce
the claimed classifications t: NotInWord, r: InWord, a: InWord, c: InWord,
e: InWord. -/
theorem trace_crane_claim_false :
    ¬ ((check_word ['t', 'r', 'a', 'c', 'e'] ['c', 'r', 'a', 'n', 'e']).map
        GuessInfo.match_types =
      some [LetterMatch.notInWord, LetterMatch.inWord, LetterMatch.inWord,
        LetterMatch.inWord, LetterMatch.inWord]) := by
  decide

/-- C4 amended: evaluating guess "trace" against target "crane" yields
t: NotInWord, r: Correct, a: Correct, c: InWord, e: Correct, with
win = false. -/
theorem trace_crane_eval :
    check_word ['t', 'r', 'a', 'c', 'e'] ['c', 'r', 'a', 'n', 'e'] =
      some { word := ['t', 'r', 'a', 'c', 'e']
             letters := ['t', 'r', 'a', 'c', 'e']
             match_types := [LetterMatch.notInWord, LetterMatch.correct,
               LetterMatch.correct, LetterMatch.inWord, LetterMatch.correct]
             win := false } := by
  decide

/-! ### Claim C6: a rejected guess leaves the state unchanged -/

/-- C6: whenever the pending letters do not form a word of the valid-guess
list, the `Enter` effect leaves the entire state (target, history, pending,
finished) unchanged, and no error is raised (the handler is total). -/
theorem submitGuess_invalid_noop (wordsAll : List (List Char)) (s : GameState)
    (h : s.pending ∉ wordsAll) :
    submitGuess wordsAll s = s := by
  simp [submitGuess, h]

theorem submitGuess_invalid_noop_witness :
    submitGuess exWords
        { target := craneWord, history := [], pending := ['a'], finished := false } =
      { target := craneWord, history := [], pending := ['a'], finished := false } :=
  submitGuess_invalid_noop exWords
    { target := craneWord, history := [], pending := ['a'], finished := false }
    (by decide)

/-! ### Claim C8: what `reset_game` does

`reset_game` redraws the target, clears `all_guesses` and resets
`finished` — but it does not touch `current_guess_letters`, so the claim
that it "clears the pending letter buffer to empty" fails on any state
with pending letters. -/

/-- C8 counterexample: starting from a state whose pending buffer holds
the letter a, `reset_game` leaves the pending buffer non-empty, so it does
not clear pending as the claim states. -/
theorem reset_game_keeps_pending :
    (reset_game craneWord
        { target := craneWord, history := [], pending := ['a'], finished := true }).pending ≠
      [] := by
  decide

/-- C8 amended: for every game state, `reset_game` with a drawn target
sets the target to that word, clears the guess history to empty, resets
finished to false, and leaves the pending letter buffer unchanged; it
never fails. -/
theorem reset_game_spec (t : List Char) (s : GameState) :
    reset_game t s =
      { target := t, history := [], pending := s.pending, finished := false } :=
  rfl

/-! ### Claim C9: the length check of `check_word` -/

/-- C9: `check_word(guess, target)` raises (returns `none`) iff the
lengths of guess and target differ; with equal lengths it returns
normally. -/
theorem check_word_none_iff (guess target : List Char) :
    check_word guess target = none ↔ guess.length ≠ target.length := by
  by_cases h : guess.length = target.length <;> simp [check_word, h]

/-! ### Claim C3: letter-count conservation -/

theorem pass2_marks_le (L : Char) (gs : List Char) :
    ∀ (ts rem : List Char),
    ((gs.zip (pass2 (gs.zip ts) rem)).countP fun p =>
        decide (p.1 = L ∧ (p.2 = LetterMatch.correct ∨ p.2 = LetterMatch.inWord))) ≤
      ((gs.zip ts).countP fun p => decide (p.1 = p.2 ∧ p.2 = L)) + rem.count L := by
  induction gs with
  | nil =>
    intro ts rem
    simp
  | cons g gs ih =>
    intro ts rem
    cases ts with
    | nil => simp [pass2]
    | cons t ts =>
      by_cases hgt : g = t
      · subst hgt
        simp only [List.zip_cons_cons, pass2, if_pos rfl, List.countP_cons]
        have h1 := ih ts rem
        by_cases hgL : g = L
        · subst hgL
          simp [List.zip] at h1 ⊢
          omega
        · simp [hgL, List.zip] at h1 ⊢
          omega
      · by_cases hmem : g ∈ rem
        · simp only [List.zip_cons_cons, pass2, if_neg hgt, if_pos hmem, List.countP_cons]
          by_cases hgL : g = L
          · subst hgL
            have h1 := ih ts (rem.erase g)
            have h2 : (rem.erase g).count g = rem.count g - 1 := List.count_erase_self g rem
            have h3 : 0 < rem.count g := List.count_pos_iff.mpr hmem
            simp [hgt, List.zip] at h1 h2 ⊢
            omega
          · have h1 := ih ts (rem.erase g)
            have h2 : (rem.erase g).count L = rem.count L :=
              List.count_erase_of_ne (fun h => hgL h.symm) rem
            simp [hgt, hgL, List.zip] at h1 h2 ⊢
            omega
        · simp only [List.zip_cons_cons, pass2, if_neg hgt, if_neg hmem, List.countP_cons]
          have h1 := ih ts rem
          simp [hgt, List.zip] at h1 ⊢
          omega

theorem firstPass_count (L : Char) (gt : List (Char × Char)) :
    ((firstPass gt).2).count L = gt.countP fun p => decide (p.1 ≠ p.2 ∧ p.2 = L) := by
  induction gt with
  | nil => rfl
  | cons p rest ih =>
    obtain ⟨g, t⟩ := p
    by_cases hgt : g = t
    · simp [firstPass, hgt, List.countP_cons, ih]
    · by_cases htL : t = L
      · subst htL
        simp [firstPass, hgt, List.countP_cons, List.count_cons, ih]
      · simp [firstPass, hgt, htL, List.countP_cons, List.count_cons, ih]

theorem countP_target_split (L : Char) (gt : List (Char × Char)) :
    (gt.countP fun p => decide (p.1 = p.2 ∧ p.2 = L)) +
      (gt.countP fun p => decide (p.1 ≠ p.2 ∧ p.2 = L)) =
      gt.countP fun p => decide (p.2 = L) := by
  induction gt with
  | nil => rfl
  | cons p rest ih =>
    obtain ⟨g, t⟩ := p
    simp only [List.countP_cons]
    by_cases hgt : g = t
    · subst hgt
      by_cases hgL : g = L
      · subst hgL
        simp at ih ⊢
        omega
      · simp [hgL] at ih ⊢
        omega
    · by_cases htL : t = L
      · subst htL
        simp [hgt] at ih ⊢
        omega
      · simp [hgt, htL] at ih ⊢
        omega

theorem zip_countP_snd_eq_count (L : Char) (gs : List Char) :
    ∀ ts : List Char, gs.length = ts.length →
      ((gs.zip ts).countP fun p => decide (p.2 = L)) = ts.count L := by
  induction gs with
  | nil =>
    intro ts h
    cases ts with
    | nil => rfl
    | cons t ts => simp at h
  | cons g gs ih =>
    intro ts h
    cases ts with
    | nil => simp at h
    | cons t ts =>
      simp only [List.length_cons, Nat.succ.injEq] at h
      by_cases htL : t = L <;>
        simp [List.zip_cons_cons, List.countP_cons, List.count_cons, htL, ih ts h]

/-- C3: letter-count conservation.  For every pair of equal-length words
and every letter L, the number of positions of
`check_word(guess, target).match_types` marked Correct or InWord at which
the guessed letter is L is at most the number of occurrences of L in the
target. -/
theorem check_word_letter_conservation (guess target : List Char) (gi : GuessInfo)
    (L : Char) (hlen : guess.length = target.length)
    (hgi : check_word guess target = some gi) :
    ((guess.zip gi.match_types).countP fun p =>
        decide (p.1 = L ∧ (p.2 = LetterMatch.correct ∨ p.2 = LetterMatch.inWord))) ≤
      target.count L := by
  rw [check_word_eq_pass2 guess target hlen, Option.some.injEq] at hgi
  subst hgi
  dsimp only
  have h1 := pass2_marks_le L guess target (firstPass (guess.zip target)).2
  have h2 := firstPass_count L (guess.zip target)
  have h3 := countP_target_split L (guess.zip target)
  have h4 := zip_countP_snd_eq_count L guess target hlen
  omega

theorem check_word_letter_conservation_witness :
    ((['b', 'a', 'b', 'e', 's'].zip giEx.match_types).countP fun p =>
        decide (p.1 = 'b' ∧ (p.2 = LetterMatch.correct ∨ p.2 = LetterMatch.inWord))) ≤
      ['a', 'b', 'b', 'e', 'y'].count 'b' :=
  check_word_letter_conservation ['b', 'a', 'b', 'e', 's'] ['a', 'b', 'b', 'e', 'y']
    giEx 'b' (by decide) (by decide)

/-! ### Claim C5: keyboard hints only get stronger -/

theorem updateLetter_ne (d : Char → Option LetterMatch) (letter : Char)
    (match_type : LetterMatch) (c : Char) (h : c ≠ letter) :
    updateLetter d letter match_type c = d c := by
  cases hd : d letter with
  | none => simp [updateLetter, hd, h]
  | some prev =>
    simp only [updateLetter, hd]
    split
    · simp [h]
    · split
      · simp [h]
      · rfl

theorem updateLetter_mono (d : Char → Option LetterMatch) (letter : Char)
    (match_type : LetterMatch) (c : Char) :
    optStrength (d c) ≤ optStrength (updateLetter d letter match_type c) := by
  by_cases hc : c = letter
  · subst hc
    cases hd : d c with
    | none => simp [updateLetter, hd, optStrength]
    | some prev =>
      cases prev <;> cases match_type <;>
        simp [updateLetter, hd, optStrength, matchStrength]
  · rw [updateLetter_ne d letter match_type c hc]

theorem foldl_updateLetter_mono (ps : List (Char × LetterMatch))
    (d : Char → Option LetterMatch) (c : Char) :
    optStrength (d c) ≤
      optStrength ((ps.foldl (fun d p => updateLetter d p.1 p.2) d) c) := by
  induction ps generalizing d with
  | nil => exact le_refl _
  | cons p rest ih =>
    exact le_trans (updateLetter_mono d p.1 p.2 c) (ih (updateLetter d p.1 p.2))

theorem processGuess_mono (d : Char → Option LetterMatch) (g : GuessInfo) (c : Char) :
    optStrength (d c) ≤ optStrength (processGuess d g c) :=
  foldl_updateLetter_mono (g.letters.zip g.match_types) d c

theorem foldl_updateLetter_none (ps : List (Char × LetterMatch))
    (d : Char → Option LetterMatch) (c : Char)
    (h : ∀ p ∈ ps, c ≠ p.1) (hd : d c = none) :
    (ps.foldl (fun d p => updateLetter d p.1 p.2) d) c = none := by
  induction ps generalizing d with
  | nil => exact hd
  | cons p rest ih =>
    refine ih (updateLetter d p.1 p.2) (fun q hq => h q (List.mem_cons_of_mem _ hq)) ?_
    rw [updateLetter_ne d p.1 p.2 c (h p (List.mem_cons_self _ _))]
    exact hd

theorem processGuess_none (d : Char → Option LetterMatch) (g : GuessInfo) (c : Char)
    (h : c ∉ g.letters) (hd : d c = none) : processGuess d g c = none := by
  refine foldl_updateLetter_none _ d c ?_ hd
  intro p hp hcp
  exact h (hcp ▸ (List.of_mem_zip hp).1)

theorem used_letters_absent (history : List GuessInfo) (c : Char)
    (h : ∀ gi ∈ history, c ∉ gi.letters) : used_letters history c = none := by
  rw [used_letters]
  induction history with
  | nil => rfl
  | cons g rest ih =>
    rw [List.foldl_cons]
    have haux : ∀ (hist : List GuessInfo) (d : Char → Option LetterMatch),
        (∀ gi ∈ hist, c ∉ gi.letters) → d c = none →
        (hist.foldl processGuess d) c = none := by
      intro hist
      induction hist with
      | nil => intro d _ hd; exact hd
      | cons g2 rest2 ih2 =>
        intro d hmem hd
        rw [List.foldl_cons]
        exact ih2 (processGuess d g2) (fun gi hgi => hmem gi (List.mem_cons_of_mem _ hgi))
          (processGuess_none d g2 c (hmem g2 (List.mem_cons_self _ _)) hd)
    exact haux (g :: rest) (fun _ => none) h rfl

/-- C5: for every guess history, appended guess and letter, the letter's
status in the aggregated keyboard-hint mapping is monotonically
non-decreasing (absent < NotInWord < InWord < Correct): aggregating
`history ++ [g]` gives the letter a status at least as strong as
aggregating `history` alone; and a letter occurring in no guess of the
history is absent from the mapping. -/
theorem used_letters_monotone (history : List GuessInfo) (g : GuessInfo) (c : Char) :
    optStrength (used_letters history c) ≤
      optStrength (used_letters (history ++ [g]) c) ∧
    ((∀ gi ∈ history, c ∉ gi.letters) → used_letters history c = none) := by
  constructor
  · rw [used_letters, used_letters, List.foldl_append, List.foldl_cons, List.foldl_nil]
    exact processGuess_mono _ g c
  · exact used_letters_absent history c

theorem used_letters_monotone_witness : used_letters [giEx] 'q' = none :=
  (used_letters_monotone [giEx] giEx 'q').2 (by decide)

/-! ### Reachability invariants -/

theorem reachable_finished_pending (targets wordsAll : List (List Char))
    (s : GameState) (hs : Reachable targets wordsAll s) :
    s.finished = true → s.pending = [] := by
  induction hs with
  | init t ht =>
    intro h
    rfl
  | @step s s' hs hstep ih =>
    cases hstep with
    | letter key =>
      by_cases hf : s.finished = true
      · simpa [appendLetter, hf] using ih
      · rw [appendLetter, if_neg hf]
        split
        · exact ih
        · intro hcon
          exact absurd hcon hf
    | back =>
      by_cases hf : s.finished = true
      · simpa [deleteLetter, hf] using ih
      · rw [deleteLetter, if_neg hf]
        split
        · intro hcon
          exact absurd hcon hf
        · exact ih
    | enter =>
      by_cases hmem : s.pending ∈ wordsAll
      · cases hcw : check_word s.pending s.target with
        | none => simpa [submitGuess, hmem, hcw] using ih
        | some res => simp [submitGuess, hmem, hcw]
      · simpa [submitGuess, hmem] using ih
    | newGame t ht =>
      intro hcon
      simp [reset_game] at hcon

theorem reachable_target_length (targets wordsAll : List (List Char))
    (hv : validWordLists targets wordsAll) (s : GameState)
    (hs : Reachable targets wordsAll s) : s.target.length = 5 := by
  induction hs with
  | init t ht => exact (hv.1 t ht).1
  | @step s s' hs hstep ih =>
    cases hstep with
    | letter key =>
      rw [appendLetter]
      split
      · exact ih
      · split
        · exact ih
        · exact ih
    | back =>
      rw [deleteLetter]
      split
      · exact ih
      · split
        · exact ih
        · exact ih
    | enter =>
      by_cases hmem : s.pending ∈ wordsAll
      · cases hcw : check_word s.pending s.target with
        | none => simpa [submitGuess, hmem, hcw] using ih
        | some res => simpa [submitGuess, hmem, hcw] using ih
      · simpa [submitGuess, hmem] using ih
    | newGame t ht => exact (hv.1 t ht).1

theorem exLists_valid : validWordLists exTargets exWords := by
  unfold validWordLists exTargets exWords craneWord
  decide

theorem reach_s0ex : Reachable exTargets exWords s0ex :=
  Reachable.init craneWord (by simp [exTargets])

theorem reach_s5ex : Reachable exTargets exWords s5ex :=
  Reachable.step
    (Reachable.step
      (Reachable.step
        (Reachable.step
          (Reachable.step reach_s0ex (Step.letter _ 'C'))
          (Step.letter _ 'R'))
        (Step.letter _ 'A'))
      (Step.letter _ 'N'))
    (Step.letter _ 'E')

theorem reach_sFex : Reachable exTargets exWords sFex :=
  Reachable.step reach_s5ex (Step.enter _)

/-! ### Claim C7: boundary and post-game no-ops -/

/-- C7: in every reachable game state, a letter key is a no-op when the
pending buffer already holds `target.length` letters; `Back` is a no-op on
an empty pending buffer; and once `finished` is true, letter keys, `Back`
and `Enter` all leave the state unchanged — so the new-game event is the
only operation that can change a finished state. -/
theorem ops_noop_conditions (targets wordsAll : List (List Char))
    (hv : validWordLists targets wordsAll) (s : GameState)
    (hs : Reachable targets wordsAll s) (key : Char) :
    (s.pending.length = s.target.length → appendLetter s key = s) ∧
    (s.pending = [] → deleteLetter s = s) ∧
    (s.finished = true →
      appendLetter s key = s ∧ deleteLetter s = s ∧ submitGuess wordsAll s = s) := by
  refine ⟨?_, ?_, ?_⟩
  · intro hlen
    have h5 : s.target.length = 5 := reachable_target_length targets wordsAll hv s hs
    have hp5 : s.pending.length = 5 := hlen.trans h5
    simp [appendLetter, hp5]
  · intro hp
    simp [deleteLetter, hp]
  · intro hf
    have hpend : s.pending = [] := reachable_finished_pending targets wordsAll s hs hf
    refine ⟨?_, ?_, ?_⟩
    · simp [appendLetter, hf]
    · simp [deleteLetter, hf]
    · have hnot : s.pending ∉ wordsAll := by
        intro hmem
        have hl := (hv.2 _ hmem).1
        rw [hpend] at hl
        simp at hl
      simp [submitGuess, hnot]

theorem ops_noop_conditions_witness :
    appendLetter s5ex 'A' = s5ex ∧ deleteLetter s0ex = s0ex ∧
      submitGuess exWords sFex = sFex := by
  refine ⟨?_, ?_, ?_⟩
  · exact (ops_noop_conditions exTargets exWords exLists_valid s5ex reach_s5ex 'A').1
      (by decide)
  · exact (ops_noop_conditions exTargets exWords exLists_valid s0ex reach_s0ex 'a').2.1 rfl
  · exact ((ops_noop_conditions exTargets exWords exLists_valid sFex reach_sFex 'a').2.2
      (by decide)).2.2

/-! ### Claim C10: finished states have an empty pending buffer -/

/-- C10: in every game state reachable from a fresh game by any sequence
of letter-key, Back, Enter and new-game events, `finished = true` implies
the pending letter buffer is empty; every event preserves this (`Enter`
clears pending in the same step that can set `finished`, the letter keys
return early while finished, and `reset_game` sets finished to false). -/
theorem finished_state_has_empty_pending (targets wordsAll : List (List Char))
    (s : GameState) (hs : Reachable targets wordsAll s)
    (hf : s.finished = true) : s.pending = [] :=
  reachable_finished_pending targets wordsAll s hs hf

theorem finished_state_has_empty_pending_witness : sFex.pending = [] :=
  finished_state_has_empty_pending exTargets exWords sFex reach_sFex (by decide)
